import Mathlib

/-!
# Verification of the H-Index Viewer core

Shallow embedding of the cache-backed, rate-limited Semantic Scholar lookup
client (`src/ss_utils.py`) and the coauthor aggregation / pinned-sort engine
(`src/hindex_gui_v3.1.1.py`), together with proofs of the spec's testable
properties.

Modelling conventions:
* HTTP transport is a function `Nat → Outcome β` giving, for each physical
  request index, either a network exception or a response with an HTTP status
  and a body of type `β` (the body is pre-parsed per endpoint; `none` inside a
  body type denotes a JSON parse failure of `resp.json()`).
* Delays (`base_delay`, sleep durations) are rationals; the Python floats
  involved (small integer multiples and powers of two) are exact, so `ℚ` is a
  faithful carrier.
* The process-wide cache dict with namespaced string keys
  (`search::<name>`, `author::<id>`, `coauthors::<id>`) is modelled as a
  record of three association lists, one per key family; the families are
  disjoint in the Python dict, so this is an isomorphic view.
* Functions return, besides their Python return value, the resulting cache,
  the number of physical network requests issued, and (where relevant) the
  sequence of sleeps performed — the observables the claims speak about.
-/

namespace HIndexViewer

/-- Result of one physical `requests.get` call: either a network-level
exception or a response with an HTTP status code and a body of type `β`. -/
inductive Outcome (β : Type) where
  | exn : Outcome β
  | resp : Nat → β → Outcome β
deriving DecidableEq, Repr

/-- A received HTTP response: status code plus (endpoint-specific) body. -/
structure Resp (β : Type) where
  status : Nat
  body : β
deriving DecidableEq, Repr

/-- Loop body of `safe_get` (`ss_utils.py` lines 49-72): `fuel` is the number
of remaining iterations of `for attempt in range(max_retries)`, `a` the current
attempt index, `last` the `last_resp` variable, `reqs` the number of physical
requests issued so far and `sleeps` the sleeps performed so far (in order).
Returns (Python return value, physical request count, sleep schedule). -/
def safe_get_go (tr : Nat → Outcome β) (bd : ℚ) :
    Nat → Nat → Option (Resp β) → Nat → List ℚ →
    Option (Resp β) × Nat × List ℚ
  | 0, _, last, reqs, sleeps => (last, reqs, sleeps)
  | fuel + 1, a, _, reqs, sleeps =>
    match tr a with
    | .exn => (none, reqs + 1, sleeps)
    | .resp st b =>
      let r : Resp β := ⟨st, b⟩
      if st = 200 then (some r, reqs + 1, sleeps)
      else if st = 429 then
        safe_get_go tr bd fuel (a + 1) (some r) (reqs + 1)
          (sleeps ++ [bd * 2 ^ a + 1])
      else if st = 500 ∨ st = 502 ∨ st = 503 ∨ st = 504 then
        safe_get_go tr bd fuel (a + 1) (some r) (reqs + 1)
          (sleeps ++ [bd * 2 ^ a])
      else (some r, reqs + 1, sleeps)

/-- `safe_get(url, headers, base_delay, max_retries)` from `ss_utils.py`:
bounded retry/backoff loop over the transport. The URL and headers do not
influence control flow and are elided; the transport stands for the network. -/
def safe_get (tr : Nat → Outcome β) (bd : ℚ) (max_retries : Nat := 6) :
    Option (Resp β) × Nat × List ℚ :=
  safe_get_go tr bd max_retries 0 none 0 []

/-- Opaque JSON object (a search-result author object or an author-detail
object); the claims treat these values opaquely, so a blob suffices. -/
abbrev SSObj := String

/-- The process-wide cache dict of `ss_utils.py`, split by key namespace:
`search::<name>` entries, `author::<id>` entries and `coauthors::<id>`
entries. The namespaces are disjoint in the single Python dict, so this is an
isomorphic view of the keys the lookup operations touch. -/
structure Cache where
  searchC : List (String × Option SSObj)
  authorC : List (String × SSObj)
  coC : List (String × List (String × Nat))
deriving DecidableEq, Repr

/-- Dict lookup (first binding wins; insertions are modelled by consing, which
gives the same lookup observations as Python's key overwrite). -/
def findIn : List (String × α) → String → Option α
  | [], _ => none
  | (k, v) :: l, x => if x = k then some v else findIn l x

/-- Body of a search response: `none` models a `resp.json()` parse failure,
`some l` models the parsed `j.get('data', [])` list. -/
abbrev SearchBody := Option (List SSObj)

/-- `ss_search_author(name, ...)` (`ss_utils.py` lines 76-106). Returns the
Python return value, the resulting cache, and the number of physical network
requests issued. -/
def ss_search_author (name : String) (c : Cache) (tr : Nat → Outcome SearchBody)
    (bd : ℚ) : Option SSObj × Cache × Nat :=
  match findIn c.searchC name with
  | some v => (v, c, 0)
  | none =>
    match safe_get tr bd 6 with
    | (none, n, _) => (none, c, n)
    | (some r, n, _) =>
      if r.status ≠ 200 then (none, c, n)
      else
        match r.body with
        | none => (none, c, n)
        | some data =>
          let top := data.head?
          (top, { c with searchC := (name, top) :: c.searchC }, n)

/-- Body of an author-details response: the first component records whether
`resp.text` contains the substring `Unrecognized or unsupported fields`, the
second is the `resp.json()` parse result. -/
abbrev DetBody := Bool × Option SSObj

/-- Python's substring test `pat in s`, on character lists. -/
def containsSubL : List Char → List Char → Bool
  | [], pat => pat.isEmpty
  | c :: rest, pat => pat.isPrefixOf (c :: rest) || containsSubL rest pat

/-- Python's substring test `pat in s`. -/
def containsSub (s pat : String) : Bool := containsSubL s.data pat.data

/-- Python `s.split(",")` on character lists (`"".split(",") == [""]`). -/
def splitOnCommaL : List Char → List (List Char)
  | [] => [[]]
  | c :: rest =>
    match splitOnCommaL rest with
    | [] => [[]]
    | g :: gs => if c = ',' then [] :: g :: gs else (c :: g) :: gs

/-- Python `",".join(gs)` on character lists. -/
def joinCommaL : List (List Char) → List Char
  | [] => []
  | [g] => g
  | g :: gs => g ++ ',' :: joinCommaL gs

/-- Python `s.strip()` on character lists. -/
def trimL (l : List Char) : List Char :=
  ((l.dropWhile Char.isWhitespace).reverse.dropWhile Char.isWhitespace).reverse

/-- `",".join([f for f in tried_fields.split(",") if f.strip().lower() != 'aliases'])`
(`ss_utils.py` line 137), via the character-list models of the Python string
operations (the field strings involved are ASCII, where `Char.toLower` agrees
with Python `str.lower`). -/
def removeAliasesField (s : String) : String :=
  String.mk (joinCommaL ((splitOnCommaL s.data).filter
    (fun f => !((trimL f).map Char.toLower == "aliases".data))))

/-- The `for _ in range(2)` loop of `ss_get_author_details` (`ss_utils.py`
lines 120-145). `it` counts remaining iterations, `tried` is `tried_fields`,
`reqs` the physical requests issued so far, and `urls` the field strings used
for the URLs requested so far (the network-visible part of each URL that
varies). Falling out of the loop returns `None`. -/
def details_go (author_id : String) (tr : Nat → Outcome DetBody) (bd : ℚ) :
    Nat → String → Cache → Nat → List String →
    Option SSObj × Cache × Nat × List String
  | 0, _, c, reqs, urls => (none, c, reqs, urls)
  | it + 1, tried, c, reqs, urls =>
    let urls' := urls ++ [tried]
    match safe_get (fun i => tr (reqs + i)) bd 6 with
    | (none, k, _) => (none, c, reqs + k, urls')
    | (some r, k, _) =>
      if r.status = 200 then
        match r.body.2 with
        | none => (none, c, reqs + k, urls')
        | some j =>
          (some j, { c with authorC := (author_id, j) :: c.authorC }, reqs + k, urls')
      else if r.status = 400 ∧ r.body.1 ∧ containsSub tried "aliases" then
        details_go author_id tr bd it (removeAliasesField tried) c (reqs + k) urls'
      else (none, c, reqs + k, urls')

/-- Default of the `fields` keyword argument of `ss_get_author_details`. -/
def DETAILS_DEFAULT_FIELDS : String := "name,hIndex,paperCount"

/-- `ss_get_author_details(author_id, ...)` (`ss_utils.py` lines 109-145).
`author_id` is `Option String` so that both Python `None` and `""` (the falsy
values of `if not author_id`) are representable. Returns the Python return
value, the resulting cache, the physical request count, and the field strings
of the URLs requested. -/
def ss_get_author_details (author_id : Option String) (fields : String) (c : Cache)
    (tr : Nat → Outcome DetBody) (bd : ℚ) :
    Option SSObj × Cache × Nat × List String :=
  match author_id with
  | none => (none, c, 0, [])
  | some aid =>
    if aid = "" then (none, c, 0, [])
    else
      match findIn c.authorC aid with
      | some v => (some v, c, 0, [])
      | none => details_go aid tr bd 2 fields c 0 []

/-- Body of a papers response: `none` models a `resp.json()` parse failure;
`some papers` models the parsed `j.get('data', [])` (empty when `j` is not a
dict), each paper reduced to its authors' display names, where `none` stands
for a falsy name (`a.get('name') or a.get('authorName') or None` missing or
empty). -/
abbrev CoBody := Option (List (List (Option String)))

/-- `co_counts[name] = co_counts.get(name, 0) + 1` on an insertion-ordered
dict. -/
def bumpCount : List (String × Nat) → String → List (String × Nat)
  | [], k => [(k, 1)]
  | (k', v) :: l, k => if k = k' then (k', v + 1) :: l else (k', v) :: bumpCount l k

/-- The counting loop of `ss_get_author_coauthors` (`ss_utils.py`
lines 175-182): one count increment per co-listed (non-falsy) author name per
paper. -/
def countCoauthors (papers : List (List (Option String))) : List (String × Nat) :=
  papers.foldl
    (fun acc p =>
      p.foldl
        (fun acc a =>
          match a with
          | none => acc
          | some nm => bumpCount acc nm)
        acc)
    []

/-- `ss_get_author_coauthors(author_id, ...)` (`ss_utils.py` lines 148-185).
Returns the Python return value (a name → count map as an association list),
the resulting cache and the physical request count. -/
def ss_get_author_coauthors (author_id : Option String) (c : Cache)
    (tr : Nat → Outcome CoBody) (bd : ℚ) :
    List (String × Nat) × Cache × Nat :=
  match author_id with
  | none => ([], c, 0)
  | some aid =>
    if aid = "" then ([], c, 0)
    else
      match findIn c.coC aid with
      | some v => (v, c, 0)
      | none =>
        match safe_get tr bd 6 with
        | (none, n, _) => ([], c, n)
        | (some r, n, _) =>
          if r.status ≠ 200 then ([], c, n)
          else
            match r.body with
            | none => ([], c, n)
            | some papers =>
              let co := countCoauthors papers
              (co, { c with coC := (aid, co) :: c.coC }, n)

/-! ## Author rows and coauthor aggregation (`hindex_gui_v3.1.1.py`) -/

/-- An author row of the GUI model (`self.rows`): the dict keys the core
reads. `hindex`/`papers` are `Option Int`: the Python values are ints, with
`None`, `""` and unparseable strings all collapsing to `float('-inf')` in the
sort key, which `none` models. -/
structure Row where
  zotero_name : String
  ss_name : String
  hindex : Option Int
  papers : Option Int
  ss_id : String
  flagged : Bool
  coauthors_list : List (String × Nat)
deriving DecidableEq, Repr

/-- The aggregate entry built by `build_coauthor_index` (lines 664-674); only
the `count` and `mains` components are computed there (the SS enrichment
fields start empty and are irrelevant to the claims). -/
structure CoEntry where
  count : Nat
  mains : Finset String
deriving DecidableEq

/-- Python dict assignment `d[k] = e`: replace in place if present, else
append. -/
def setKey : List (String × CoEntry) → String → CoEntry → List (String × CoEntry)
  | [], k, e => [(k, e)]
  | (k', e') :: l, k, e =>
    if k = k' then (k, e) :: l else (k', e') :: setKey l k e

/-- `entry = co_index.get(co_name, default); entry['count'] += cnt;
entry['mains'].add(zname); co_index[co_name] = entry` (lines 670-673). -/
def addPair (idx : List (String × CoEntry)) (co_name : String) (cnt : Nat)
    (zname : String) : List (String × CoEntry) :=
  let entry := (findIn idx co_name).getD ⟨0, ∅⟩
  setKey idx co_name ⟨entry.count + cnt, insert zname entry.mains⟩

/-- One iteration of the inner loop of `build_coauthor_index` (lines 667-673):
skip falsy names, skip the record's own `ss_name`, otherwise merge the pair. -/
def recStep (ss zname : String) (idx : List (String × CoEntry)) (p : String × Nat) :
    List (String × CoEntry) :=
  if p.1 = "" then idx
  else if p.1 = ss then idx
  else addPair idx p.1 p.2 zname

/-- Fold one record's coauthor map into the index. -/
def addRecord (idx : List (String × CoEntry)) (r : Row) : List (String × CoEntry) :=
  r.coauthors_list.foldl (recStep r.ss_name r.zotero_name) idx

/-- The aggregation pass of `build_coauthor_index` (`hindex_gui_v3.1.1.py`
lines 664-674): fold all rows' coauthor maps into one index keyed by coauthor
display name. -/
def build_coauthor_index (rows : List Row) : List (String × CoEntry) :=
  rows.foldl addRecord []

/-- Total count contributed to `name` by the pairs of one coauthor map. -/
def sumPairs (l : List (String × Nat)) (name : String) : Nat :=
  (l.map (fun p => if p.1 = name then p.2 else 0)).sum

/-- Whether record `r` contributes to the aggregate entry of `name`: the name
is nonempty, differs from the record's own `ss_name`, and occurs in the
record's coauthor map. -/
abbrev contributes (r : Row) (name : String) : Prop :=
  name ≠ "" ∧ name ≠ r.ss_name ∧ ∃ p ∈ r.coauthors_list, p.1 = name

/-- Count contributed by one record: self-named and empty-named entries
contribute nothing; all other entries add their counts. -/
def recordContribution (r : Row) (name : String) : Nat :=
  if name = "" ∨ name = r.ss_name then 0 else sumPairs r.coauthors_list name

/-- Total aggregate count for `name`. -/
def countOf (rows : List Row) (name : String) : Nat :=
  (rows.map (fun r => recordContribution r name)).sum

/-- Aggregate `mains` set for `name`: the `zotero_name`s of the contributing
records. -/
def mainsOf (rows : List Row) (name : String) : Finset String :=
  ((rows.filter (fun r => decide (contributes r name))).map
    (fun r => r.zotero_name)).toFinset

/-! ## Pinned sorting (`refresh_tree` / `sort_by`, `hindex_gui_v3.1.1.py`
lines 395-421 and 432-435)

Python's `list.sort(key=..., reverse=...)` is the stable sort of the list
under the total preorder induced by the key: equal-key elements keep their
original relative order, and `reverse=True` flips the key comparison without
disturbing that stability. Any two stable sorting algorithms agree on every
input, so the structural insertion sort `stableSort` below computes exactly
the list Python's sort produces. -/

/-- The sortable columns of the Authors tree. -/
inductive Col where
  | zotero_name
  | ss_name
  | hindex
  | papers
  | ss_id
deriving DecidableEq, Repr

/-- A sort key as computed by `sort_key` in `refresh_tree`: a float for the
numeric columns (`none` standing for `float('-inf')`, the value used for
missing/unparseable cells) or a lowercased string for the text columns. -/
inductive SKey where
  | num : Option Int → SKey
  | txt : String → SKey
deriving DecidableEq, Repr

/-- Comparison of numeric keys; `none` is `float('-inf')`, below everything. -/
def obLe : Option Int → Option Int → Bool
  | none, _ => true
  | some _, none => false
  | some a, some b => decide (a ≤ b)

/-- Lexicographic comparison of character lists (Python string `<=` compares
code points lexicographically). -/
def charListLe : List Char → List Char → Bool
  | [], _ => true
  | _ :: _, [] => false
  | a :: as, b :: bs =>
    if a.toNat < b.toNat then true
    else if b.toNat < a.toNat then false
    else charListLe as bs

/-- Python string `<=`. -/
def strLe (a b : String) : Bool := charListLe a.data b.data

/-- Python `s.lower()` (the strings involved are ASCII, where `Char.toLower`
agrees with Python). -/
def lowerStr (s : String) : String := String.mk (s.data.map Char.toLower)

/-- Total preorder on sort keys. A numeric and a text key are never compared
in a run (one column fixes the key shape); the cross cases are fixed
arbitrarily to keep the order total. -/
def skLe : SKey → SKey → Bool
  | .num a, .num b => obLe a b
  | .num _, .txt _ => true
  | .txt _, .num _ => false
  | .txt a, .txt b => strLe a b

/-- `sort_key` from `refresh_tree` (lines 399-406): numeric columns parse to a
float with missing values as `-inf`; all other columns (and the no-column
default) compare the lowercased text, defaulting to `zotero_name`. -/
def sort_key (col : Option Col) (r : Row) : SKey :=
  match col with
  | some .hindex => .num r.hindex
  | some .papers => .num r.papers
  | some .zotero_name => .txt (lowerStr r.zotero_name)
  | some .ss_name => .txt (lowerStr r.ss_name)
  | some .ss_id => .txt (lowerStr r.ss_id)
  | none => .txt (lowerStr r.zotero_name)

/-- The comparison `list.sort(key=sort_key, reverse=desc)` sorts by:
`reverse=True` flips the key comparison (stability is handled by
`stableSort`). -/
def pyLe (key : Row → SKey) (desc : Bool) (a b : Row) : Bool :=
  if desc then skLe (key b) (key a) else skLe (key a) (key b)

/-- Stable insertion: place `x` before the first element not strictly below
it; later-arriving equal-key elements therefore stay behind earlier ones. -/
def sinsert (le : α → α → Bool) (x : α) : List α → List α
  | [] => [x]
  | y :: l => if le x y then x :: y :: l else y :: sinsert le x l

/-- The stable sort of `l` under the total preorder `le` — the list Python's
`list.sort` produces. -/
def stableSort (le : α → α → Bool) (l : List α) : List α :=
  l.foldr (sinsert le) []

/-- The comparison `refresh_tree` actually sorts each partition with: the
active column's key with the current direction when a column is set, else
ascending lowercased `zotero_name` (lines 407-413; the no-column branch
ignores the direction flag). -/
def refreshLe (col : Option Col) (desc : Bool) : Row → Row → Bool :=
  match col with
  | some _ => pyLe (sort_key col) desc
  | none => pyLe (sort_key none) false

/-- The ordering `refresh_tree` displays (lines 407-414): the flagged rows,
sorted, followed by the unflagged rows, sorted. -/
def refresh_tree_order (rows : List Row) (col : Option Col) (desc : Bool) : List Row :=
  stableSort (refreshLe col desc) (rows.filter fun r => r.flagged) ++
    stableSort (refreshLe col desc) (rows.filter fun r => !r.flagged)

/-! ## Concrete rows used by witnesses and counterexamples -/

/-- The spec's end-to-end example, first author. -/
def adaR : Row :=
  ⟨"Ada Lovelace", "Ada Lovelace", none, none, "A1", false, [("Charles Babbage", 2)]⟩

/-- The spec's end-to-end example, second author. -/
def alanR : Row :=
  ⟨"Alan Turing", "Alan Turing", none, none, "A2", false,
    [("Charles Babbage", 1), ("Alonzo Church", 3)]⟩

/-- An unflagged row. -/
def wPlain : Row := ⟨"plain", "", some 9, some 4, "P1", false, []⟩

/-- A flagged row. -/
def wFlagged : Row := ⟨"starred", "", some 2, some 1, "F1", true, []⟩

/-- Two unflagged rows with equal `hindex` sort keys but different names. -/
def tieRowA : Row := ⟨"alpha", "", some 5, none, "", false, []⟩

/-- See `tieRowA`. -/
def tieRowB : Row := ⟨"beta", "", some 5, none, "", false, []⟩

/-- Three rows with pairwise distinct `hindex` keys (one flagged). -/
def sortRowC : Row := ⟨"carol", "", some 1, none, "", false, []⟩

/-- See `sortRowC`. -/
def sortRowD : Row := ⟨"dave", "", some 2, none, "", true, []⟩

/-- See `sortRowC`. -/
def sortRowE : Row := ⟨"erin", "", some 3, none, "", false, []⟩

/-! ## Helper lemmas: aggregation -/

theorem findIn_setKey_self (idx : List (String × CoEntry)) (k : String) (e : CoEntry) :
    findIn (setKey idx k e) k = some e := by
  induction idx with
  | nil => simp [setKey, findIn]
  | cons p l ih =>
    rcases p with ⟨k', e'⟩
    by_cases h : k = k'
    · simp [setKey, findIn, h]
    · simp [setKey, findIn, h, ih]

theorem findIn_setKey_ne (idx : List (String × CoEntry)) (k k' : String) (e : CoEntry)
    (h : k' ≠ k) : findIn (setKey idx k e) k' = findIn idx k' := by
  induction idx with
  | nil => simp [setKey, findIn, h]
  | cons p l ih =>
    rcases p with ⟨k₀, e₀⟩
    by_cases h0 : k = k₀
    · subst h0
      simp [setKey, findIn, h]
    · by_cases h1 : k' = k₀ <;> simp [setKey, findIn, h0, h1, ih]

theorem sumPairs_cons (pn : String) (pc : Nat) (l : List (String × Nat)) (name : String) :
    sumPairs ((pn, pc) :: l) name = (if pn = name then pc else 0) + sumPairs l name := by
  simp [sumPairs]

theorem sumPairs_eq_zero (l : List (String × Nat)) (name : String)
    (h : ¬∃ p ∈ l, p.1 = name) : sumPairs l name = 0 := by
  induction l with
  | nil => simp [sumPairs]
  | cons p l ih =>
    rcases p with ⟨pn, pc⟩
    rw [sumPairs_cons]
    rw [if_neg (fun hc => h ⟨(pn, pc), List.mem_cons_self _ _, hc⟩)]
    rw [ih (fun ⟨q, hq, hq1⟩ => h ⟨q, List.mem_cons_of_mem _ hq, hq1⟩)]

theorem findIn_addPair_self (idx : List (String × CoEntry)) (pn : String) (pc : Nat)
    (zname : String) :
    findIn (addPair idx pn pc zname) pn =
      some ⟨((findIn idx pn).getD ⟨0, ∅⟩).count + pc,
            insert zname ((findIn idx pn).getD ⟨0, ∅⟩).mains⟩ := by
  simp [addPair, findIn_setKey_self]

theorem findIn_addPair_ne (idx : List (String × CoEntry)) (pn : String) (pc : Nat)
    (zname name : String) (h : pn ≠ name) :
    findIn (addPair idx pn pc zname) name = findIn idx name := by
  simp only [addPair]
  exact findIn_setKey_ne _ _ _ _ (fun hc => h hc.symm)

theorem foldPairs_findIn (ss zname name : String) (l : List (String × Nat)) :
    ∀ idx : List (String × CoEntry),
      ((name ≠ "" ∧ name ≠ ss ∧ ∃ p ∈ l, p.1 = name) →
        findIn (l.foldl (recStep ss zname) idx) name =
          some ⟨((findIn idx name).getD ⟨0, ∅⟩).count + sumPairs l name,
                insert zname ((findIn idx name).getD ⟨0, ∅⟩).mains⟩) ∧
      (¬(name ≠ "" ∧ name ≠ ss ∧ ∃ p ∈ l, p.1 = name) →
        findIn (l.foldl (recStep ss zname) idx) name = findIn idx name) := by
  induction l with
  | nil =>
    intro idx
    constructor
    · rintro ⟨-, -, q, hq, -⟩
      cases hq
    · intro _
      rfl
  | cons p l ih =>
    intro idx
    rcases p with ⟨pn, pc⟩
    by_cases hpn : pn = ""
    · subst hpn
      have hstep : recStep ss zname idx ("", pc) = idx := by simp [recStep]
      rw [List.foldl_cons, hstep]
      constructor
      · rintro ⟨h1, h2, q, hq, hq1⟩
        rcases List.mem_cons.mp hq with rfl | hq'
        · exact absurd hq1.symm h1
        · rw [(ih idx).1 ⟨h1, h2, q, hq', hq1⟩, sumPairs_cons]
          rw [if_neg (fun hc => h1 hc.symm)]
          rw [Nat.zero_add]
      · intro hni
        apply (ih idx).2
        rintro ⟨h1, h2, q, hq', hq1⟩
        exact hni ⟨h1, h2, q, List.mem_cons_of_mem _ hq', hq1⟩
    · by_cases hps : pn = ss
      · subst hps
        have hstep : recStep pn zname idx (pn, pc) = idx := by simp [recStep, hpn]
        rw [List.foldl_cons, hstep]
        constructor
        · rintro ⟨h1, h2, q, hq, hq1⟩
          rcases List.mem_cons.mp hq with rfl | hq'
          · exact absurd hq1 (fun hc => h2 hc.symm)
          · rw [(ih idx).1 ⟨h1, h2, q, hq', hq1⟩, sumPairs_cons]
            rw [if_neg (fun hc => h2 hc.symm)]
            rw [Nat.zero_add]
        · intro hni
          apply (ih idx).2
          rintro ⟨h1, h2, q, hq', hq1⟩
          exact hni ⟨h1, h2, q, List.mem_cons_of_mem _ hq', hq1⟩
      · have hstep : recStep ss zname idx (pn, pc) = addPair idx pn pc zname := by
          simp [recStep, hpn, hps]
        rw [List.foldl_cons, hstep]
        constructor
        · rintro ⟨h1, h2, q, hq, hq1⟩
          by_cases hn : pn = name
          · have hfi : findIn (addPair idx pn pc zname) name =
                some ⟨((findIn idx name).getD ⟨0, ∅⟩).count + pc,
                      insert zname ((findIn idx name).getD ⟨0, ∅⟩).mains⟩ := by
              rw [← hn]
              exact findIn_addPair_self idx pn pc zname
            by_cases hl : ∃ p ∈ l, p.1 = name
            · rw [(ih (addPair idx pn pc zname)).1 ⟨h1, h2, hl⟩, hfi]
              rw [sumPairs_cons, if_pos hn]
              simp [Nat.add_assoc]
            · rw [(ih (addPair idx pn pc zname)).2 (fun hc => hl hc.2.2), hfi]
              rw [sumPairs_cons, if_pos hn, sumPairs_eq_zero l name hl, Nat.add_zero]
          · rcases List.mem_cons.mp hq with rfl | hq'
            · exact absurd hq1 hn
            · rw [(ih (addPair idx pn pc zname)).1 ⟨h1, h2, q, hq', hq1⟩]
              rw [findIn_addPair_ne idx pn pc zname name hn]
              rw [sumPairs_cons, if_neg hn, Nat.zero_add]
        · intro hni
          by_cases h1 : name = ""
          · have hn : pn ≠ name := fun hc => hpn (hc.trans h1)
            rw [(ih (addPair idx pn pc zname)).2 (fun hc => hc.1 h1)]
            exact findIn_addPair_ne idx pn pc zname name hn
          · by_cases h2 : name = ss
            · have hn : pn ≠ name := fun hc => hps (hc.trans h2)
              rw [(ih (addPair idx pn pc zname)).2 (fun hc => hc.2.1 h2)]
              exact findIn_addPair_ne idx pn pc zname name hn
            · have hn : pn ≠ name := fun hc =>
                hni ⟨h1, h2, (pn, pc), List.mem_cons_self _ _, hc⟩
              have hl : ¬∃ p ∈ l, p.1 = name := fun hc => by
                rcases hc with ⟨q, hq, hq1⟩
                exact hni ⟨h1, h2, q, List.mem_cons_of_mem _ hq, hq1⟩
              rw [(ih (addPair idx pn pc zname)).2 (fun hc => hl hc.2.2)]
              exact findIn_addPair_ne idx pn pc zname name hn

theorem addRecord_findIn_pos (idx : List (String × CoEntry)) (r : Row) (name : String)
    (h : contributes r name) :
    findIn (addRecord idx r) name =
      some ⟨((findIn idx name).getD ⟨0, ∅⟩).count + sumPairs r.coauthors_list name,
            insert r.zotero_name ((findIn idx name).getD ⟨0, ∅⟩).mains⟩ :=
  (foldPairs_findIn r.ss_name r.zotero_name name r.coauthors_list idx).1 h

theorem addRecord_findIn_neg (idx : List (String × CoEntry)) (r : Row) (name : String)
    (h : ¬contributes r name) :
    findIn (addRecord idx r) name = findIn idx name :=
  (foldPairs_findIn r.ss_name r.zotero_name name r.coauthors_list idx).2 h

theorem recordContribution_pos (r : Row) (name : String) (h : contributes r name) :
    recordContribution r name = sumPairs r.coauthors_list name := by
  unfold recordContribution
  rw [if_neg]
  rintro (hc | hc)
  · exact h.1 hc
  · exact h.2.1 hc

theorem recordContribution_neg (r : Row) (name : String) (h : ¬contributes r name) :
    recordContribution r name = 0 := by
  unfold recordContribution
  by_cases hc : name = "" ∨ name = r.ss_name
  · rw [if_pos hc]
  · rw [if_neg hc]
    push_neg at hc
    exact sumPairs_eq_zero _ _ (fun hex => h ⟨hc.1, hc.2, hex⟩)

theorem countOf_cons (r : Row) (rows : List Row) (name : String) :
    countOf (r :: rows) name = recordContribution r name + countOf rows name := by
  simp [countOf]

theorem mainsOf_cons_pos (r : Row) (rows : List Row) (name : String)
    (h : contributes r name) :
    mainsOf (r :: rows) name = insert r.zotero_name (mainsOf rows name) := by
  unfold mainsOf
  rw [List.filter_cons, if_pos (by simp [h]), List.map_cons, List.toFinset_cons]

theorem mainsOf_cons_neg (r : Row) (rows : List Row) (name : String)
    (h : ¬contributes r name) :
    mainsOf (r :: rows) name = mainsOf rows name := by
  unfold mainsOf
  rw [List.filter_cons, if_neg (by simp [h])]

theorem countOf_eq_zero (rows : List Row) (name : String)
    (h : ¬∃ r ∈ rows, contributes r name) : countOf rows name = 0 := by
  induction rows with
  | nil => simp [countOf]
  | cons r rows ih =>
    rw [countOf_cons]
    rw [recordContribution_neg r name (fun hc => h ⟨r, List.mem_cons_self _ _, hc⟩)]
    rw [ih (fun ⟨q, hq, hcq⟩ => h ⟨q, List.mem_cons_of_mem _ hq, hcq⟩)]

theorem mainsOf_eq_empty (rows : List Row) (name : String)
    (h : ¬∃ r ∈ rows, contributes r name) : mainsOf rows name = ∅ := by
  induction rows with
  | nil => simp [mainsOf]
  | cons r rows ih =>
    rw [mainsOf_cons_neg r rows name (fun hc => h ⟨r, List.mem_cons_self _ _, hc⟩)]
    exact ih (fun ⟨q, hq, hcq⟩ => h ⟨q, List.mem_cons_of_mem _ hq, hcq⟩)

theorem buildFold_findIn (name : String) (rows : List Row) :
    ∀ idx : List (String × CoEntry),
      ((∃ r ∈ rows, contributes r name) →
        findIn (rows.foldl addRecord idx) name =
          some ⟨((findIn idx name).getD ⟨0, ∅⟩).count + countOf rows name,
                mainsOf rows name ∪ ((findIn idx name).getD ⟨0, ∅⟩).mains⟩) ∧
      (¬(∃ r ∈ rows, contributes r name) →
        findIn (rows.foldl addRecord idx) name = findIn idx name) := by
  induction rows with
  | nil =>
    intro idx
    constructor
    · rintro ⟨r, hr, -⟩
      cases hr
    · intro _
      rfl
  | cons r rows ih =>
    intro idx
    constructor
    · rintro ⟨q, hq, hcq⟩
      by_cases hr : contributes r name
      · have hfi := addRecord_findIn_pos idx r name hr
        by_cases hrows : ∃ q ∈ rows, contributes q name
        · rw [List.foldl_cons, (ih (addRecord idx r)).1 hrows, hfi]
          rw [countOf_cons, recordContribution_pos r name hr, mainsOf_cons_pos r rows name hr]
          simp [Nat.add_assoc, Finset.union_insert, Finset.insert_union]
        · rw [List.foldl_cons, (ih (addRecord idx r)).2 hrows, hfi]
          rw [countOf_cons, recordContribution_pos r name hr, countOf_eq_zero rows name hrows,
            Nat.add_zero, mainsOf_cons_pos r rows name hr, mainsOf_eq_empty rows name hrows]
          simp [Finset.insert_union, ← Finset.insert_eq]
      · have hrows : ∃ q ∈ rows, contributes q name := by
          rcases List.mem_cons.mp hq with rfl | hq'
          · exact absurd hcq hr
          · exact ⟨q, hq', hcq⟩
        rw [List.foldl_cons, (ih (addRecord idx r)).1 hrows, addRecord_findIn_neg idx r name hr]
        rw [countOf_cons, recordContribution_neg r name hr, Nat.zero_add,
          mainsOf_cons_neg r rows name hr]
    · intro hni
      have hr : ¬contributes r name := fun hc => hni ⟨r, List.mem_cons_self _ _, hc⟩
      have hrows : ¬∃ q ∈ rows, contributes q name :=
        fun ⟨q, hq, hcq⟩ => hni ⟨q, List.mem_cons_of_mem _ hq, hcq⟩
      rw [List.foldl_cons, (ih (addRecord idx r)).2 hrows, addRecord_findIn_neg idx r name hr]

/-- The aggregate index, characterized pointwise: an entry exists for `name`
exactly when some record contributes to it, and then its count is the total of
the contributing pairs and its mains set the contributing records'
`zotero_name`s. -/
theorem buildIndex_findIn (rows : List Row) (name : String) :
    findIn (build_coauthor_index rows) name =
      if ∃ r ∈ rows, contributes r name then
        some ⟨countOf rows name, mainsOf rows name⟩
      else none := by
  by_cases h : ∃ r ∈ rows, contributes r name
  · rw [if_pos h]
    have hx := (buildFold_findIn name rows []).1 h
    unfold build_coauthor_index
    rw [hx]
    simp [findIn]
  · rw [if_neg h]
    have hx := (buildFold_findIn name rows []).2 h
    unfold build_coauthor_index
    rw [hx]
    rfl

/-! ## Helper lemmas: comparators and stable sorting -/

theorem charEq_of_toNat_eq (a b : Char) (h : a.toNat = b.toNat) : a = b := by
  apply Char.eq_of_val_eq
  exact UInt32.toNat.inj h

theorem charListLe_total (a b : List Char) : charListLe a b = true ∨ charListLe b a = true := by
  induction a generalizing b with
  | nil => left; simp [charListLe]
  | cons x as ih =>
    rcases b with _ | ⟨y, bs⟩
    · right; simp [charListLe]
    · by_cases h1 : x.toNat < y.toNat
      · left; simp [charListLe, h1]
      · by_cases h2 : y.toNat < x.toNat
        · right; simp [charListLe, h1, h2]
        · rcases ih bs with h' | h' <;> [left; right] <;> simp [charListLe, h1, h2, h']

theorem charListLe_trans (a b c : List Char) (h1 : charListLe a b = true)
    (h2 : charListLe b c = true) : charListLe a c = true := by
  induction a generalizing b c with
  | nil => simp [charListLe]
  | cons x as ih =>
    rcases b with _ | ⟨y, bs⟩
    · simp [charListLe] at h1
    · rcases c with _ | ⟨z, cs⟩
      · simp [charListLe] at h2
      · simp only [charListLe] at h1 h2 ⊢
        by_cases hxy : x.toNat < y.toNat
        · by_cases hyz : y.toNat < z.toNat
          · simp [show x.toNat < z.toNat by omega]
          · simp [hyz] at h2
            obtain ⟨hzy, -⟩ := h2
            simp [show x.toNat < z.toNat by omega]
        · simp [hxy] at h1
          obtain ⟨hyx, hrec1⟩ := h1
          by_cases hyz : y.toNat < z.toNat
          · simp [show x.toNat < z.toNat by omega]
          · simp [hyz] at h2
            obtain ⟨hzy, hrec2⟩ := h2
            by_cases hxz : x.toNat < z.toNat
            · simp [hxz]
            · simp [hxz, show ¬z.toNat < x.toNat by omega]
              exact ih bs cs hrec1 hrec2

theorem charListLe_antisymm (a b : List Char) (h1 : charListLe a b = true)
    (h2 : charListLe b a = true) : a = b := by
  induction a generalizing b with
  | nil =>
    rcases b with _ | ⟨y, bs⟩
    · rfl
    · simp [charListLe] at h2
  | cons x as ih =>
    rcases b with _ | ⟨y, bs⟩
    · simp [charListLe] at h1
    · simp only [charListLe] at h1 h2
      by_cases hxy : x.toNat < y.toNat
      · simp [show ¬y.toNat < x.toNat by omega] at h2
        omega
      · simp [hxy] at h1
        obtain ⟨hyx, hrec1⟩ := h1
        simp [show ¬y.toNat < x.toNat by omega] at h2
        obtain ⟨hxy2, hrec2⟩ := h2
        rw [charEq_of_toNat_eq x y (by omega), ih bs hrec1 hrec2]

theorem obLe_total (a b : Option Int) : obLe a b = true ∨ obLe b a = true := by
  rcases a with _ | a <;> rcases b with _ | b <;> simp [obLe]
  exact Int.le_total a b

theorem obLe_trans (a b c : Option Int) (h1 : obLe a b = true) (h2 : obLe b c = true) :
    obLe a c = true := by
  rcases a with _ | a <;> rcases b with _ | b <;> rcases c with _ | c <;>
    simp [obLe] at *
  exact le_trans h1 h2

theorem obLe_antisymm (a b : Option Int) (h1 : obLe a b = true) (h2 : obLe b a = true) :
    a = b := by
  rcases a with _ | a <;> rcases b with _ | b <;> simp [obLe] at *
  exact le_antisymm h1 h2

theorem strLe_antisymm (a b : String) (h1 : strLe a b = true) (h2 : strLe b a = true) :
    a = b := by
  have hd := charListLe_antisymm a.data b.data h1 h2
  rcases a with ⟨ad⟩
  rcases b with ⟨bd⟩
  exact congrArg String.mk hd

theorem skLe_total (a b : SKey) : skLe a b = true ∨ skLe b a = true := by
  rcases a with a | a <;> rcases b with b | b <;> simp [skLe, strLe]
  · exact obLe_total a b
  · exact charListLe_total a.data b.data

theorem skLe_trans (a b c : SKey) (h1 : skLe a b = true) (h2 : skLe b c = true) :
    skLe a c = true := by
  rcases a with a | a <;> rcases b with b | b <;> rcases c with c | c <;>
    simp [skLe, strLe] at *
  · exact obLe_trans a b c h1 h2
  · exact charListLe_trans a.data b.data c.data h1 h2

theorem skLe_antisymm (a b : SKey) (h1 : skLe a b = true) (h2 : skLe b a = true) :
    a = b := by
  rcases a with a | a <;> rcases b with b | b <;> simp [skLe] at *
  · exact obLe_antisymm a b h1 h2
  · exact strLe_antisymm a b h1 h2

theorem sinsert_perm (le : α → α → Bool) (x : α) (l : List α) :
    (sinsert le x l).Perm (x :: l) := by
  induction l with
  | nil => exact List.Perm.refl _
  | cons y l ih =>
    by_cases h : le x y
    · simp [sinsert, h]
    · simp only [sinsert, h, if_neg]
      exact (ih.cons y).trans (List.Perm.swap x y l)

theorem stableSort_perm (le : α → α → Bool) (l : List α) :
    (stableSort le l).Perm l := by
  induction l with
  | nil => exact List.Perm.refl _
  | cons x l ih =>
    have hx : stableSort le (x :: l) = sinsert le x (stableSort le l) := rfl
    rw [hx]
    exact (sinsert_perm le x (stableSort le l)).trans (ih.cons x)

theorem sinsert_pairwise (le : α → α → Bool)
    (htot : ∀ a b, le a b = true ∨ le b a = true)
    (htrans : ∀ a b c, le a b = true → le b c = true → le a c = true)
    (x : α) (l : List α) (h : l.Pairwise fun a b => le a b = true) :
    (sinsert le x l).Pairwise fun a b => le a b = true := by
  induction l with
  | nil => simp [sinsert]
  | cons y l ih =>
    rcases List.pairwise_cons.mp h with ⟨hy, hl⟩
    by_cases hxy : le x y
    · simp only [sinsert, hxy, if_pos]
      refine List.pairwise_cons.mpr ⟨?_, h⟩
      intro z hz
      rcases List.mem_cons.mp hz with hzy | hz'
      · subst hzy
        exact hxy
      · exact htrans x y z hxy (hy z hz')
    · simp only [sinsert, hxy, if_neg]
      refine List.pairwise_cons.mpr ⟨?_, ih hl⟩
      intro z hz
      rcases List.mem_cons.mp ((sinsert_perm le x l).mem_iff.mp hz) with hzx | hz'
      · subst hzx
        rcases htot z y with h'' | h''
        · exact absurd h'' hxy
        · exact h''
      · exact hy z hz'

theorem stableSort_pairwise (le : α → α → Bool)
    (htot : ∀ a b, le a b = true ∨ le b a = true)
    (htrans : ∀ a b c, le a b = true → le b c = true → le a c = true)
    (l : List α) : (stableSort le l).Pairwise fun a b => le a b = true := by
  induction l with
  | nil => exact List.Pairwise.nil
  | cons x l ih =>
    have hx : stableSort le (x :: l) = sinsert le x (stableSort le l) := rfl
    rw [hx]
    exact sinsert_pairwise le htot htrans x (stableSort le l) ih



theorem stableSort_flip_eq_reverse {α : Type} (key : α → SKey) (l : List α)
    (hd : l.Pairwise fun a b => key a ≠ key b) :
    stableSort (fun a b => skLe (key b) (key a)) l
      = (stableSort (fun a b => skLe (key a) (key b)) l).reverse := by
  have symmNe : ∀ {x y : α}, key x ≠ key y → key y ≠ key x := fun h => h.symm
  have sortedA : (stableSort (fun a b => skLe (key b) (key a)) l).Pairwise
      (fun a b => skLe (key b) (key a) = true) :=
    stableSort_pairwise _ (fun a b => (skLe_total (key a) (key b)).symm)
      (fun a b c h1 h2 => skLe_trans _ _ _ h2 h1) l
  have sortedB : (stableSort (fun a b => skLe (key a) (key b)) l).Pairwise
      (fun a b => skLe (key a) (key b) = true) :=
    stableSort_pairwise _ (fun a b => skLe_total (key a) (key b))
      (fun a b c h1 h2 => skLe_trans _ _ _ h1 h2) l
  have hdA : (stableSort (fun a b => skLe (key b) (key a)) l).Pairwise
      (fun a b => key a ≠ key b) :=
    ((stableSort_perm _ l).pairwise_iff symmNe).mpr hd
  have hdB : (stableSort (fun a b => skLe (key a) (key b)) l).Pairwise
      (fun a b => key a ≠ key b) :=
    ((stableSort_perm _ l).pairwise_iff symmNe).mpr hd
  have sortedArev : (stableSort (fun a b => skLe (key b) (key a)) l).reverse.Pairwise
      (fun a b => skLe (key a) (key b) = true) :=
    List.pairwise_reverse.mpr sortedA
  have hdArev : (stableSort (fun a b => skLe (key b) (key a)) l).reverse.Pairwise
      (fun a b => key a ≠ key b) :=
    List.pairwise_reverse.mpr (hdA.imp symmNe)
  have hperm : (stableSort (fun a b => skLe (key b) (key a)) l).reverse.Perm
      (stableSort (fun a b => skLe (key a) (key b)) l) :=
    ((List.reverse_perm _).trans (stableSort_perm _ l)).trans (stableSort_perm _ l).symm
  haveI : IsAntisymm α (fun a b => skLe (key a) (key b) = true ∧ key a ≠ key b) := by
    constructor
    rintro a b ⟨h1, hne⟩ ⟨h2, -⟩
    exact absurd (skLe_antisymm _ _ h1 h2) hne
  have heq : (stableSort (fun a b => skLe (key b) (key a)) l).reverse
      = stableSort (fun a b => skLe (key a) (key b)) l :=
    List.eq_of_perm_of_sorted hperm (sortedArev.and hdArev) (sortedB.and hdB)
  calc stableSort (fun a b => skLe (key b) (key a)) l
      = (stableSort (fun a b => skLe (key b) (key a)) l).reverse.reverse :=
        (List.reverse_reverse _).symm
    _ = (stableSort (fun a b => skLe (key a) (key b)) l).reverse := by rw [heq]

/-! ## Helper lemmas: details loop and pinned append -/

theorem details_go_one_urls (aid : String) (tr : Nat → Outcome DetBody) (bd : ℚ)
    (tried : String) (c : Cache) (reqs : Nat) (urls : List String) :
    (details_go aid tr bd 1 tried c reqs urls).2.2.2 = urls ++ [tried] := by
  simp only [details_go]
  rcases h : safe_get (fun i => tr (reqs + i)) bd 6 with ⟨r, k, s⟩
  rcases r with _ | r
  · simp
  · simp only
    split
    · rcases hb : r.body.2 with _ | j <;> simp [hb]
    · split
      · simp [details_go]
      · simp

theorem append_flag_index {A B : List Row} (hA : ∀ x ∈ A, x.flagged = true)
    (hB : ∀ x ∈ B, x.flagged = false) (i j : Nat) (hi : i < (A ++ B).length)
    (hj : j < (A ++ B).length) (hfi : ((A ++ B).get ⟨i, hi⟩).flagged = true)
    (hfj : ((A ++ B).get ⟨j, hj⟩).flagged = false) : i < j := by
  have hiA : i < A.length := by
    by_contra hni
    push_neg at hni
    have hmem : (A ++ B).get ⟨i, hi⟩ ∈ B := by
      rw [List.get_eq_getElem, List.getElem_append_right hni]
      exact List.getElem_mem _
    have hc := hB _ hmem
    rw [hfi] at hc
    cases hc
  have hjA : A.length ≤ j := by
    by_contra hnj
    push_neg at hnj
    have hmem : (A ++ B).get ⟨j, hj⟩ ∈ A := by
      rw [List.get_eq_getElem, List.getElem_append_left hnj]
      exact List.getElem_mem _
    have hc := hA _ hmem
    rw [hfj] at hc
    cases hc
  omega

/-! ## Claim theorems -/

/-- C1: for a name missing from the cache and a transport answering the first
request with HTTP 200 and a parseable body, calling `ss_search_author` twice
(the second call on the cache the first produced) issues exactly one network
request in total (one on the first call, none on the second), and the second
call returns exactly the value the first call stored under `search::<name>`,
leaving the cache unchanged. -/
theorem search_memoization_idempotent (name : String) (c : Cache)
    (tr : Nat → Outcome SearchBody) (bd : ℚ) (ds : List SSObj)
    (hmiss : findIn c.searchC name = none)
    (h200 : tr 0 = .resp 200 (some ds)) :
    (ss_search_author name c tr bd).2.2 = 1 ∧
      (ss_search_author name (ss_search_author name c tr bd).2.1 tr bd).2.2 = 0 ∧
      findIn (ss_search_author name c tr bd).2.1.searchC name
        = some (ss_search_author name c tr bd).1 ∧
      (ss_search_author name (ss_search_author name c tr bd).2.1 tr bd).1
        = (ss_search_author name c tr bd).1 ∧
      (ss_search_author name (ss_search_author name c tr bd).2.1 tr bd).2.1
        = (ss_search_author name c tr bd).2.1 := by
  simp [ss_search_author, safe_get, safe_get_go, h200, hmiss, findIn]

/-- C1 witness -/
theorem search_memoization_idempotent_witness :
    (ss_search_author "Ada" ⟨[], [], []⟩ (fun _ => .resp 200 (some ["obj1"])) 3).2.2 = 1 ∧
      (ss_search_author "Ada"
        (ss_search_author "Ada" ⟨[], [], []⟩ (fun _ => .resp 200 (some ["obj1"])) 3).2.1
        (fun _ => .resp 200 (some ["obj1"])) 3).2.2 = 0 ∧
      findIn (ss_search_author "Ada" ⟨[], [], []⟩
        (fun _ => .resp 200 (some ["obj1"])) 3).2.1.searchC "Ada"
        = some (ss_search_author "Ada" ⟨[], [], []⟩ (fun _ => .resp 200 (some ["obj1"])) 3).1 ∧
      (ss_search_author "Ada"
        (ss_search_author "Ada" ⟨[], [], []⟩ (fun _ => .resp 200 (some ["obj1"])) 3).2.1
        (fun _ => .resp 200 (some ["obj1"])) 3).1
        = (ss_search_author "Ada" ⟨[], [], []⟩ (fun _ => .resp 200 (some ["obj1"])) 3).1 ∧
      (ss_search_author "Ada"
        (ss_search_author "Ada" ⟨[], [], []⟩ (fun _ => .resp 200 (some ["obj1"])) 3).2.1
        (fun _ => .resp 200 (some ["obj1"])) 3).2.1
        = (ss_search_author "Ada" ⟨[], [], []⟩ (fun _ => .resp 200 (some ["obj1"])) 3).2.1 :=
  search_memoization_idempotent "Ada" ⟨[], [], []⟩ (fun _ => .resp 200 (some ["obj1"])) 3
    ["obj1"] rfl rfl

/-- C2: for a name missing from the cache and a transport answering the first
request with HTTP 200 and a parseable body, one call to `ss_search_author`
stores the top search result or `none` under `search::<name>` — even `none`
is cached — and every subsequent call for that name returns the cached value
with zero network requests, for any transport whatsoever. -/
theorem search_caches_null_result (name : String) (c : Cache)
    (tr : Nat → Outcome SearchBody) (bd : ℚ) (ds : List SSObj)
    (hmiss : findIn c.searchC name = none)
    (h200 : tr 0 = .resp 200 (some ds)) :
    findIn (ss_search_author name c tr bd).2.1.searchC name = some ds.head? ∧
      ∀ (tr' : Nat → Outcome SearchBody) (bd' : ℚ),
        ss_search_author name (ss_search_author name c tr bd).2.1 tr' bd'
          = (ds.head?, (ss_search_author name c tr bd).2.1, 0) := by
  simp [ss_search_author, safe_get, safe_get_go, h200, hmiss, findIn]

/-- C2 witness: an empty result list, so the cached value is `none` (null). -/
theorem search_caches_null_result_witness :
    findIn (ss_search_author "X" ⟨[], [], []⟩
        (fun _ => .resp 200 (some [])) 3).2.1.searchC "X"
      = some (List.head? []) ∧
      ss_search_author "X"
        (ss_search_author "X" ⟨[], [], []⟩ (fun _ => .resp 200 (some [])) 3).2.1
        (fun _ => .exn) 0
        = (List.head? [],
           (ss_search_author "X" ⟨[], [], []⟩ (fun _ => .resp 200 (some [])) 3).2.1, 0) :=
  ⟨(search_caches_null_result "X" ⟨[], [], []⟩ (fun _ => .resp 200 (some [])) 3 [] rfl rfl).1,
   (search_caches_null_result "X" ⟨[], [], []⟩ (fun _ => .resp 200 (some [])) 3 [] rfl rfl).2
     (fun _ => .exn) 0⟩

/-- C3: a transport answering 500 on every attempt with `max_retries = 6`
makes `safe_get` issue exactly 6 physical requests and return the 6th (attempt
index 5) failing response, after the six exponential-backoff sleeps. -/
theorem retry_ceiling {β : Type} (B : Nat → β) (bd : ℚ) :
    safe_get (fun n => Outcome.resp 500 (B n)) bd 6
      = (some ⟨500, B 5⟩, 6,
         [bd * 2 ^ 0, bd * 2 ^ 1, bd * 2 ^ 2, bd * 2 ^ 3, bd * 2 ^ 4, bd * 2 ^ 5]) :=
  rfl



/-- C4 counterexample: HTTP 501 is a 5xx status, but `safe_get` performs no
sleep for it — it returns the response immediately after one request, whereas
the claim's "sleep after a 5xx at attempt a is baseDelay * 2^a" would demand a
first sleep of `3 * 2 ^ 0`. -/
theorem backoff_schedule_cex :
    safe_get (fun _ => Outcome.resp 501 ()) 3 6 = (some ⟨501, ()⟩, 1, ([] : List ℚ)) ∧
      ([] : List ℚ) ≠ [3 * 2 ^ 0] := by
  constructor
  · rfl
  · decide

/-- C4 amended: the concrete 429/429/429/200 run sleeps `bd*1+1`, `bd*2+1`,
`bd*4+1` and returns the 4th response; a 429 at attempt `a` sleeps
`bd * 2^a + 1`; a status in {500, 502, 503, 504} at attempt `a` sleeps
`bd * 2^a`; every other non-200 status (for example 501) is returned
immediately with no sleep and no retry. -/
theorem backoff_schedule_amended :
    (∀ (β : Type) (B : Nat → β) (bd : ℚ),
      safe_get (fun n => if n < 3 then Outcome.resp 429 (B n) else Outcome.resp 200 (B n)) bd 6
        = (some ⟨200, B 3⟩, 4, [bd * 2 ^ 0 + 1, bd * 2 ^ 1 + 1, bd * 2 ^ 2 + 1])) ∧
    (∀ (β : Type) (tr : Nat → Outcome β) (bd : ℚ) (fuel a reqs : Nat)
        (last : Option (Resp β)) (sleeps : List ℚ) (b : β),
      tr a = Outcome.resp 429 b →
      safe_get_go tr bd (fuel + 1) a last reqs sleeps
        = safe_get_go tr bd fuel (a + 1) (some ⟨429, b⟩) (reqs + 1)
            (sleeps ++ [bd * 2 ^ a + 1])) ∧
    (∀ (β : Type) (tr : Nat → Outcome β) (bd : ℚ) (fuel a reqs : Nat)
        (last : Option (Resp β)) (sleeps : List ℚ) (st : Nat) (b : β),
      tr a = Outcome.resp st b → (st = 500 ∨ st = 502 ∨ st = 503 ∨ st = 504) →
      safe_get_go tr bd (fuel + 1) a last reqs sleeps
        = safe_get_go tr bd fuel (a + 1) (some ⟨st, b⟩) (reqs + 1)
            (sleeps ++ [bd * 2 ^ a])) ∧
    (∀ (β : Type) (tr : Nat → Outcome β) (bd : ℚ) (fuel a reqs : Nat)
        (last : Option (Resp β)) (sleeps : List ℚ) (st : Nat) (b : β),
      tr a = Outcome.resp st b → st ≠ 200 → st ≠ 429 →
      ¬(st = 500 ∨ st = 502 ∨ st = 503 ∨ st = 504) →
      safe_get_go tr bd (fuel + 1) a last reqs sleeps = (some ⟨st, b⟩, reqs + 1, sleeps)) := by
  refine ⟨fun β B bd => rfl, ?_, ?_, ?_⟩
  · intro β tr bd fuel a reqs last sleeps b h
    simp [safe_get_go, h]
  · intro β tr bd fuel a reqs last sleeps st b h hst
    rcases hst with h5 | h5 | h5 | h5 <;> subst h5 <;> simp [safe_get_go, h]
  · intro β tr bd fuel a reqs last sleeps st b h h200 h429 h5xx
    simp [safe_get_go, h, h200, h429, h5xx]

/-- C4 witness -/
theorem backoff_schedule_amended_witness :
    (safe_get (fun n => if n < 3 then Outcome.resp 429 () else Outcome.resp 200 ()) 3 6
      = (some ⟨200, ()⟩, 4, [3 * 2 ^ 0 + 1, 3 * 2 ^ 1 + 1, 3 * 2 ^ 2 + 1])) ∧
    (safe_get_go (fun _ => Outcome.resp 429 ()) 3 1 0 none 0 []
      = safe_get_go (fun _ => Outcome.resp 429 ()) 3 0 1 (some ⟨429, ()⟩) 1
          ([] ++ [3 * 2 ^ 0 + 1])) ∧
    (safe_get_go (fun _ => Outcome.resp 502 ()) 3 1 0 none 0 []
      = safe_get_go (fun _ => Outcome.resp 502 ()) 3 0 1 (some ⟨502, ()⟩) 1
          ([] ++ [3 * 2 ^ 0])) ∧
    (safe_get_go (fun _ => Outcome.resp 404 ()) 3 1 0 none 0 [] = (some ⟨404, ()⟩, 1, [])) :=
  ⟨backoff_schedule_amended.1 Unit (fun _ => ()) 3,
   backoff_schedule_amended.2.1 Unit (fun _ => Outcome.resp 429 ()) 3 0 0 0 none [] () rfl,
   backoff_schedule_amended.2.2.1 Unit (fun _ => Outcome.resp 502 ()) 3 0 0 0 none [] 502 () rfl
     (Or.inr (Or.inl rfl)),
   backoff_schedule_amended.2.2.2 Unit (fun _ => Outcome.resp 404 ()) 3 0 0 0 none [] 404 () rfl
     (by decide) (by decide) (by decide)⟩



/-- C5: aggregation is order-independent — permuting the input records leaves
every coauthor name's aggregate entry (count and mains set) unchanged.
Re-running on the same records trivially reproduces the same index, since
`build_coauthor_index` is a pure function of its input. -/
theorem aggregation_order_independence (rows1 rows2 : List Row)
    (h : rows1.Perm rows2) (name : String) :
    findIn (build_coauthor_index rows1) name
      = findIn (build_coauthor_index rows2) name := by
  rw [buildIndex_findIn, buildIndex_findIn]
  have hex : (∃ r ∈ rows1, contributes r name) ↔ ∃ r ∈ rows2, contributes r name := by
    constructor <;> rintro ⟨r, hr, hc⟩
    · exact ⟨r, h.mem_iff.mp hr, hc⟩
    · exact ⟨r, h.mem_iff.mpr hr, hc⟩
  have hcount : countOf rows1 name = countOf rows2 name :=
    List.Perm.sum_eq (h.map fun r => recordContribution r name)
  have hmains : mainsOf rows1 name = mainsOf rows2 name := by
    unfold mainsOf
    exact List.toFinset_eq_of_perm _ _
      ((h.filter fun r => decide (contributes r name)).map fun r => r.zotero_name)
  by_cases hx : ∃ r ∈ rows1, contributes r name
  · rw [if_pos hx, if_pos (hex.mp hx), hcount, hmains]
  · rw [if_neg hx, if_neg (fun hc => hx (hex.mpr hc))]

/-- C5 witness, on the spec's end-to-end example records in both orders. -/
theorem aggregation_order_independence_witness :
    findIn (build_coauthor_index [adaR, alanR]) "Charles Babbage"
      = findIn (build_coauthor_index [alanR, adaR]) "Charles Babbage" :=
  aggregation_order_independence [adaR, alanR] [alanR, adaR]
    (List.Perm.swap alanR adaR []) "Charles Babbage"

/-- C6 counterexample: a coauthor-map entry with an empty name and count 5 in
a record whose `ss_name` is `"X"` is an "other" entry (its name differs from
the record's `ss_name`), yet it is skipped entirely: the aggregate index stays
empty instead of holding count 5 for it. -/
theorem self_name_exclusion_cex :
    build_coauthor_index [⟨"Z", "X", none, none, "", false, [("", 5)]⟩] = [] ∧
      ("" : String) ≠ "X" := by
  constructor
  · rfl
  · decide

/-- C6 amended: entries named like the record's own `ss_name` contribute
nothing, and so do empty-named entries; every other entry adds its count to
the aggregate total and the record's `zotero_name` to the mains set (the exact
totals are `countOf`/`mainsOf`, whose definitions carry both exclusions). -/
theorem self_name_exclusion_amended (rows : List Row) (name : String) :
    findIn (build_coauthor_index rows) name =
      if ∃ r ∈ rows, contributes r name then
        some ⟨countOf rows name, mainsOf rows name⟩
      else none :=
  buildIndex_findIn rows name

/-- C7: in the displayed ordering, every flagged row sits at a strictly
smaller index than every unflagged row, whatever the sort column and
direction. -/
theorem pinning_invariant (rows : List Row) (col : Option Col) (desc : Bool)
    (i j : Nat) (hi : i < (refresh_tree_order rows col desc).length)
    (hj : j < (refresh_tree_order rows col desc).length)
    (hfi : ((refresh_tree_order rows col desc).get ⟨i, hi⟩).flagged = true)
    (hfj : ((refresh_tree_order rows col desc).get ⟨j, hj⟩).flagged = false) :
    i < j := by
  refine append_flag_index ?_ ?_ i j hi hj hfi hfj
  · intro x hx
    exact (List.mem_filter.mp ((stableSort_perm _ _).mem_iff.mp hx)).2
  · intro x hx
    have hb := (List.mem_filter.mp ((stableSort_perm _ _).mem_iff.mp hx)).2
    simpa using hb

/-- C7 witness -/
theorem pinning_invariant_witness :
    ((refresh_tree_order [wPlain, wFlagged] (some Col.hindex) false).get
        ⟨0, by decide⟩).flagged = true ∧
    ((refresh_tree_order [wPlain, wFlagged] (some Col.hindex) false).get
        ⟨1, by decide⟩).flagged = false ∧
    0 < 1 :=
  ⟨by decide, by decide,
   pinning_invariant [wPlain, wFlagged] (some Col.hindex) false 0 1
     (by decide) (by decide) (by decide) (by decide)⟩



/-- C8 counterexample: two unflagged rows with equal `hindex` keys. Python's
sort is stable, so both the ascending and the descending ordering keep them in
input order, and the descending ordering is not the reverse of the ascending
one. -/
theorem direction_toggle_cex :
    refresh_tree_order [tieRowA, tieRowB] (some Col.hindex) false = [tieRowA, tieRowB] ∧
    refresh_tree_order [tieRowA, tieRowB] (some Col.hindex) true = [tieRowA, tieRowB] ∧
    refresh_tree_order [tieRowA, tieRowB] (some Col.hindex) true
      ≠ (refresh_tree_order [tieRowA, tieRowB] (some Col.hindex) false).reverse := by
  refine ⟨by decide, by decide, by decide⟩

/-- C8 amended: when the sort keys are pairwise distinct within each
partition, toggling the direction reverses each partition's internal order
exactly, and the partitioning itself (flagged prefix, unflagged suffix) is
unchanged; rows with equal keys instead keep their original relative order in
both directions (stable sort). -/
theorem direction_toggle_amended (rows : List Row) (c : Col) (desc : Bool)
    (hf : (rows.filter fun r => r.flagged).Pairwise
      (fun a b => sort_key (some c) a ≠ sort_key (some c) b))
    (ho : (rows.filter fun r => !r.flagged).Pairwise
      (fun a b => sort_key (some c) a ≠ sort_key (some c) b)) :
    refresh_tree_order rows (some c) (!desc)
      = (stableSort (refreshLe (some c) desc) (rows.filter fun r => r.flagged)).reverse
        ++ (stableSort (refreshLe (some c) desc) (rows.filter fun r => !r.flagged)).reverse := by
  cases desc
  · show stableSort (fun a b => skLe (sort_key (some c) b) (sort_key (some c) a))
        (rows.filter fun r => r.flagged)
      ++ stableSort (fun a b => skLe (sort_key (some c) b) (sort_key (some c) a))
        (rows.filter fun r => !r.flagged)
      = (stableSort (fun a b => skLe (sort_key (some c) a) (sort_key (some c) b))
          (rows.filter fun r => r.flagged)).reverse
        ++ (stableSort (fun a b => skLe (sort_key (some c) a) (sort_key (some c) b))
            (rows.filter fun r => !r.flagged)).reverse
    rw [stableSort_flip_eq_reverse _ _ hf, stableSort_flip_eq_reverse _ _ ho]
  · show stableSort (fun a b => skLe (sort_key (some c) a) (sort_key (some c) b))
        (rows.filter fun r => r.flagged)
      ++ stableSort (fun a b => skLe (sort_key (some c) a) (sort_key (some c) b))
        (rows.filter fun r => !r.flagged)
      = (stableSort (fun a b => skLe (sort_key (some c) b) (sort_key (some c) a))
          (rows.filter fun r => r.flagged)).reverse
        ++ (stableSort (fun a b => skLe (sort_key (some c) b) (sort_key (some c) a))
            (rows.filter fun r => !r.flagged)).reverse
    rw [stableSort_flip_eq_reverse _ _ hf, stableSort_flip_eq_reverse _ _ ho]
    rw [List.reverse_reverse, List.reverse_reverse]

/-- C8 witness -/
theorem direction_toggle_amended_witness :
    refresh_tree_order [sortRowC, sortRowD, sortRowE] (some Col.hindex) (!false)
      = (stableSort (refreshLe (some Col.hindex) false)
          (([sortRowC, sortRowD, sortRowE] : List Row).filter fun r => r.flagged)).reverse
        ++ (stableSort (refreshLe (some Col.hindex) false)
            (([sortRowC, sortRowD, sortRowE] : List Row).filter fun r => !r.flagged)).reverse :=
  direction_toggle_amended [sortRowC, sortRowD, sortRowE] Col.hindex false
    (by decide) (by decide)



/-- C9 counterexample: with the default field set (which does not contain
`aliases`), a 400 response whose body names an unsupported field is not
retried at all — the call returns null after a single request with a single
requested field string, not the two the claim's "retries exactly once with the
offending field removed" would produce. -/
theorem details_fallback_cex :
    ss_get_author_details (some "A1") DETAILS_DEFAULT_FIELDS ⟨[], [], []⟩
        (fun _ => Outcome.resp 400 (true, none)) 3
      = (none, ⟨[], [], []⟩, 1, [DETAILS_DEFAULT_FIELDS]) ∧
      ([DETAILS_DEFAULT_FIELDS] : List String).length ≠ 2 := by
  constructor
  · decide
  · decide

/-- C9 amended: the fallback fires only for the literal field `aliases` — on a
400 response flagged with the unsupported-fields message, when the requested
field string contains `aliases`, the call retries exactly once with the
`aliases` fields removed (two requested field strings in total); any other
non-200 outcome returns null without touching the cache, after that single
logical attempt. -/
theorem details_fallback_amended :
    (∀ (aid fields : String) (c : Cache) (tr : Nat → Outcome DetBody) (bd : ℚ)
        (r : Resp DetBody) (k : Nat) (s : List ℚ),
      aid ≠ "" → findIn c.authorC aid = none →
      containsSub fields "aliases" = true →
      safe_get tr bd 6 = (some r, k, s) → r.status = 400 → r.body.1 = true →
      (ss_get_author_details (some aid) fields c tr bd).2.2.2
        = [fields, removeAliasesField fields]) ∧
    (∀ (aid fields : String) (c : Cache) (tr : Nat → Outcome DetBody) (bd : ℚ)
        (r : Resp DetBody) (k : Nat) (s : List ℚ),
      aid ≠ "" → findIn c.authorC aid = none →
      safe_get tr bd 6 = (some r, k, s) → r.status ≠ 200 →
      ¬(r.status = 400 ∧ r.body.1 = true ∧ containsSub fields "aliases" = true) →
      ss_get_author_details (some aid) fields c tr bd = (none, c, k, [fields])) := by
  have htr0 : ∀ (tr : Nat → Outcome DetBody), (fun i => tr (0 + i)) = tr := by
    intro tr
    funext i
    rw [Nat.zero_add]
  constructor
  · intro aid fields c tr bd r k s haid hmiss hal hsg hst hflag
    have hstart : ss_get_author_details (some aid) fields c tr bd
        = details_go aid tr bd 2 fields c 0 [] := by
      simp [ss_get_author_details, haid, hmiss]
    rw [hstart]
    have h2 : details_go aid tr bd 2 fields c 0 []
        = details_go aid tr bd 1 (removeAliasesField fields) c (0 + k) [fields] := by
      show details_go aid tr bd (1 + 1) fields c 0 [] = _
      simp only [details_go, htr0, hsg]
      rw [if_neg (by simp [hst]), if_pos ⟨hst, hflag, hal⟩]
      simp only [List.nil_append]
    rw [h2, details_go_one_urls]
    rfl
  · intro aid fields c tr bd r k s haid hmiss hsg hst hnot
    have hstart : ss_get_author_details (some aid) fields c tr bd
        = details_go aid tr bd 2 fields c 0 [] := by
      simp [ss_get_author_details, haid, hmiss]
    rw [hstart]
    show details_go aid tr bd (1 + 1) fields c 0 [] = _
    simp only [details_go, htr0, hsg]
    rw [if_neg (by simp [hst]), if_neg hnot]
    simp

/-- C9 witness -/
theorem details_fallback_amended_witness :
    (ss_get_author_details (some "A1") "name,aliases" ⟨[], [], []⟩
        (fun _ => Outcome.resp 400 (true, none)) 3).2.2.2
      = ["name,aliases", removeAliasesField "name,aliases"] ∧
    ss_get_author_details (some "A2") "nm" ⟨[], [], []⟩
        (fun _ => Outcome.resp 404 (false, none)) 3
      = (none, ⟨[], [], []⟩, 1, ["nm"]) :=
  ⟨details_fallback_amended.1 "A1" "name,aliases" ⟨[], [], []⟩
     (fun _ => Outcome.resp 400 (true, none)) 3 ⟨400, (true, none)⟩ 1 []
     (by decide) rfl (by decide) rfl rfl rfl,
   details_fallback_amended.2 "A2" "nm" ⟨[], [], []⟩
     (fun _ => Outcome.resp 404 (false, none)) 3 ⟨404, (false, none)⟩ 1 []
     (by decide) rfl rfl (by decide) (by decide)⟩

/-- C10: a `None` or empty author id makes `ss_get_author_details` return
null and `ss_get_author_coauthors` return the empty map, both immediately:
no network request is issued and the cache is unchanged. -/
theorem empty_id_guard (aid : Option String) (fields : String) (c : Cache)
    (tr : Nat → Outcome DetBody) (tr' : Nat → Outcome CoBody) (bd bd' : ℚ)
    (h : aid = none ∨ aid = some "") :
    ss_get_author_details aid fields c tr bd = (none, c, 0, []) ∧
      ss_get_author_coauthors aid c tr' bd' = ([], c, 0) := by
  rcases h with h | h <;> subst h <;>
    simp [ss_get_author_details, ss_get_author_coauthors]

/-- C10 witness -/
theorem empty_id_guard_witness :
    ss_get_author_details (some "") "name,hIndex,paperCount" ⟨[], [], []⟩
        (fun _ => Outcome.exn) 3 = (none, ⟨[], [], []⟩, 0, []) ∧
      ss_get_author_coauthors (some "") ⟨[], [], []⟩ (fun _ => Outcome.exn) 3
        = ([], ⟨[], [], []⟩, 0) :=
  empty_id_guard (some "") "name,hIndex,paperCount" ⟨[], [], []⟩
    (fun _ => Outcome.exn) (fun _ => Outcome.exn) 3 3 (Or.inr rfl)

end HIndexViewer
